import Mathlib

/-!
Verification of the reduction core of agua.py: resilient paginated fetch
with retry/backoff, timestamp normalization, nearest-within-tolerance
alignment onto a 30-minute grid, and the statistics/trend computation.

Times are embedded as integers (seconds of local wall-clock time, so one
grid step is 1800 and one tolerance minute is 60); sample values as
rationals. Network effects are embedded by passing the sequence of
responses the remote side would give: one response per retry attempt for
safe_get, one batch per page for fetch_feed.
-/

namespace Agua

/-! ## safe_get: retry with exponential backoff (agua.py lines 65-83)

A single attempt either yields an HTTP response with a status code and a
parsed JSON body, or raises a transport-level exception. `safe_get_run i r`
is the loop of safe_get from attempt index `i` with `r` attempts left;
it returns the final value together with the list of backoff sleeps
(in seconds) performed, in order. -/

/-- One network attempt's outcome: an HTTP response with status code and
parsed body, or a transport-level exception (requests.RequestException). -/
inductive Resp (ρ : Type) where
  | response (code : ℕ) (body : List ρ)
  | exc
deriving DecidableEq

/-- The retryable status set of agua.py line 72: rate limit / server hiccups. -/
def retryable (c : ℕ) : Bool :=
  c == 429 || c == 500 || c == 502 || c == 503 || c == 504

/-- The retry loop of safe_get. `resp i` is what attempt `i` returns,
`b` the backoff base. Returns (result, backoff sleeps performed). -/
def safe_get_run (resp : ℕ → Resp ρ) (b : ℚ) : ℕ → ℕ → List ρ × List ℚ
  | _, 0 => ([], [])
  | i, r + 1 =>
    match resp i with
    | .response code body =>
      if code = 200 then (body, [])
      else if retryable code then
        let k := safe_get_run resp b (i + 1) r
        (k.1, b ^ i :: k.2)
      else ([], [])
    | .exc =>
      let k := safe_get_run resp b (i + 1) r
      (k.1, b ^ i :: k.2)

/-- safe_get with its default arguments: retries=4, backoff=1.5. -/
def safe_get (resp : ℕ → Resp ρ) : List ρ × List ℚ :=
  safe_get_run resp (3 / 2) 0 4

/-! ## fetch_feed: pagination (agua.py lines 86-102)

The remote side is embedded as the list of batches it would serve for
pages 1, 2, 3, ...; a request past the end of that list yields the empty
batch, which is what the nil case returns. -/

/-- The pagination loop of fetch_feed over the served batches: stop on an
empty batch, stop after a batch shorter than the page size, otherwise
accumulate and turn the page. -/
def fetch_feed (limit : ℕ) : List (List ρ) → List ρ
  | [] => []
  | b :: rest =>
    if b.isEmpty then []
    else if b.length < limit then b
    else b ++ fetch_feed limit rest

/-- Number of page requests fetch_feed makes against the served batches
(the request that receives the empty-or-short page included). -/
def fetch_requests (limit : ℕ) : List (List ρ) → ℕ
  | [] => 1
  | b :: rest =>
    if b.isEmpty then 1
    else if b.length < limit then 1
    else 1 + fetch_requests limit rest

/-- fetch_feed composed with safe_get: each page's batch is whatever
safe_get degrades to under that page's attempt oracle. -/
def fetch_feed_net (limit : ℕ) (oracles : List (ℕ → Resp ρ)) : List ρ :=
  fetch_feed limit (oracles.map (fun o => (safe_get o).1))

/-- Attempt outcome that safe_get treats as success (HTTP 200). -/
def ok200 : Resp ρ → Bool
  | .response c _ => c == 200
  | .exc => false

/-- Attempt outcome that safe_get retries: retryable status or exception. -/
def transient : Resp ρ → Bool
  | .response c _ => retryable c
  | .exc => true

/-- Attempt outcome on which safe_get stops immediately with []:
a non-retryable status other than 200. -/
def hardFail (r : Resp ρ) : Bool :=
  !ok200 r && !transient r

/-! ## parse_raw: timestamp normalization (agua.py lines 108-129)

A raw created_at string is embedded by which of the three branches of
parse_raw it hits, together with the wall-clock instant `w` it spells
(in seconds). The canonical zone is America/Santiago; its DST-dependent
utcoffset is passed in as `off : ℤ → ℤ` (seconds, negative west of
Greenwich), so pytz's localize of a naive wall time `w` is the absolute
instant `w - off w`. A string suffixed with the hardcoded -03:00 offset
spells the absolute instant `w + 10800`. Instants are compared and sorted
as absolute times, exactly as Python compares aware datetimes. -/

/-- The shape of a created_at string, by the branch of parse_raw that
handles it: hardcoded -03:00 suffix; a Z or +00:00 UTC marker; no zone
marker at all; or a string fromisoformat rejects. -/
inductive RawTs where
  | offsetChile (w : ℤ)
  | utc (w : ℤ)
  | naive (w : ℤ)
  | malformed
deriving DecidableEq

/-- One raw record: a value (none when float() would reject it or the
key is missing) and a created_at timestamp. -/
structure RawRec where
  value : Option ℚ
  created_at : RawTs
deriving DecidableEq

/-- The try-block body of parse_raw for one record: none exactly when the
record is dropped by the except clause. -/
def parse_one (off : ℤ → ℤ) (d : RawRec) : Option (ℤ × ℚ) :=
  match d.value with
  | none => none
  | some v =>
    match d.created_at with
    | .offsetChile w => some (w + 10800, v)
    | .utc w => some (w, v)
    | .naive w => some (w - off w, v)
    | .malformed => none

/-- parse_raw: keep the well-formed records as (instant, value) pairs and
sort by instant (Python's sorted with key x[0]). -/
def parse_raw (off : ℤ → ℤ) (data : List RawRec) : List (ℤ × ℚ) :=
  (data.filterMap (parse_one off)).insertionSort (fun a b => a.1 ≤ b.1)

instance : IsTotal (ℤ × ℚ) (fun a b => a.1 ≤ b.1) :=
  ⟨fun a b => le_total a.1 b.1⟩

instance : IsTrans (ℤ × ℚ) (fun a b => a.1 ≤ b.1) :=
  ⟨fun _ _ _ h1 h2 => le_trans h1 h2⟩

/-! ## downsample_30min: grid alignment (agua.py lines 135-166) -/

/-- The slot-building loop: marks every 30 minutes (1800 s) from `t`
while they do not pass `e`. -/
def build_slots (t e : ℤ) : List ℤ :=
  if h : t ≤ e then t :: build_slots (t + 1800) e else []
termination_by (e + 1800 - t).toNat
decreasing_by simp_wf; omega

/-- The inner while loop of downsample_30min for one slot: consume samples
while their signed delta does not pass the tolerance, tracking the best
candidate and its distance; return the best value and the samples left
for later slots. -/
def slot_pick (slot tol : ℤ) : Option α → ℤ → List (ℤ × α) → Option α × List (ℤ × α)
  | best, _, [] => (best, [])
  | best, bestDelta, (vt, vv) :: rest =>
    let delta := vt - slot
    if tol < delta then (best, (vt, vv) :: rest)
    else if |delta| ≤ tol ∧ |delta| < bestDelta then
      slot_pick slot tol (some vv) |delta| rest
    else slot_pick slot tol best bestDelta rest

/-- The outer for loop of downsample_30min: one slot_pick per slot, the
leftover samples threaded through, a pair (slot, value) appended exactly
when a best candidate was found. The emitted timestamp is the slot's. -/
def downsample_go (tol : ℤ) : List ℤ → List (ℤ × α) → List (ℤ × α)
  | [], _ => []
  | slot :: slots, vals =>
    match slot_pick slot tol none tol vals with
    | (some v, rest) => (slot, v) :: downsample_go tol slots rest
    | (none, rest) => downsample_go tol slots rest

/-- downsample_30min: one point per 30-minute mark in [start, end], taking
the nearest value within the tolerance (minutes); empty input short-circuits. -/
def downsample_30min (values : List (ℤ × α)) (startL endL : ℤ) (tolMin : ℤ) : List (ℤ × α) :=
  if values.isEmpty then []
  else downsample_go (tolMin * 60) (build_slots startL endL) values

/-! ## The reference aligner, from the spec's words (section 4.3)

For each slot independently: scan the whole series in time order, keeping
the candidate with the strictly smallest absolute distance to the slot
(strict-less-than comparator, so the first-encountered candidate wins
exact-distance ties), and emit (slot, value) when one eligible candidate
exists. `nearest_strict` demands distance strictly below the tolerance;
`nearest_incl` is the variant the spec's tolerance-boundary sentence
describes, where distance exactly equal to the tolerance is eligible. -/

/-- Scan for the nearest candidate at distance < tol, first-found winning
ties, starting from a current best `o`. -/
def nearest_strict (slot tol : ℤ) : Option (ℤ × α) → List (ℤ × α) → Option (ℤ × α)
  | o, [] => o
  | none, p :: rest =>
    if |p.1 - slot| < tol then nearest_strict slot tol (some p) rest
    else nearest_strict slot tol none rest
  | some q, p :: rest =>
    if |p.1 - slot| < tol ∧ |p.1 - slot| < |q.1 - slot| then
      nearest_strict slot tol (some p) rest
    else nearest_strict slot tol (some q) rest

/-- Scan for the nearest candidate at distance ≤ tol (the spec's inclusive
tolerance boundary), first-found winning ties. -/
def nearest_incl (slot tol : ℤ) : Option (ℤ × α) → List (ℤ × α) → Option (ℤ × α)
  | o, [] => o
  | none, p :: rest =>
    if |p.1 - slot| ≤ tol then nearest_incl slot tol (some p) rest
    else nearest_incl slot tol none rest
  | some q, p :: rest =>
    if |p.1 - slot| ≤ tol ∧ |p.1 - slot| < |q.1 - slot| then
      nearest_incl slot tol (some p) rest
    else nearest_incl slot tol (some q) rest

/-- Per-slot independent alignment with strict tolerance. -/
def ref_align (tol : ℤ) (slots : List ℤ) (vs : List (ℤ × α)) : List (ℤ × α) :=
  slots.filterMap (fun s => (nearest_strict s tol none vs).map (fun p => (s, p.2)))

/-- Per-slot independent alignment with the spec's inclusive tolerance. -/
def ref_align_incl (tol : ℤ) (slots : List ℤ) (vs : List (ℤ × α)) : List (ℤ × α) :=
  slots.filterMap (fun s => (nearest_incl s tol none vs).map (fun p => (s, p.2)))

/-! ## calc_stats and trend_symbol (agua.py lines 167-184)

Python's statistics.pstdev is the square root of the population variance;
the square root of a rational is not rational, so the record carries the
squared field std_sq, with std_sq = pstdev². The code's n ≤ 1 guard
(0.0 instead of pstdev) squares to the same 0. -/

/-- The stats record calc_stats builds, with std squared. -/
structure Stats where
  n : ℕ
  min : ℚ
  max : ℚ
  mean : ℚ
  std_sq : ℚ
  first : ℚ
  last : ℚ
deriving DecidableEq

/-- calc_stats: None on empty input, else count, extrema, arithmetic mean,
population variance (std_sq, guarded to 0 for a single point), and the
values of the first and last pair. -/
def calc_stats : List (ℤ × ℚ) → Option Stats
  | [] => none
  | (_t, v) :: rest =>
    let arr := v :: rest.map (fun p => p.2)
    let m := arr.sum / (arr.length : ℚ)
    some
      { n := arr.length
        min := (rest.map (fun p => p.2)).foldl Min.min v
        max := (rest.map (fun p => p.2)).foldl Max.max v
        mean := m
        std_sq := if 1 < arr.length then ((arr.map (fun x => (x - m) ^ 2)).sum) / (arr.length : ℚ) else 0
        first := v
        last := (rest.map (fun p => p.2)).getLastD v }

/-- The three trend arrows of trend_symbol. -/
inductive Trend where
  | positive
  | negative
  | neutral
deriving DecidableEq

/-- trend_symbol: neutral when either end is absent or the delta is inside
the threshold dead zone, else the sign of the delta. -/
def trend_symbol (first last : Option ℚ) (threshold : ℚ) : Trend :=
  match first, last with
  | none, _ => .neutral
  | _, none => .neutral
  | some f, some l =>
    let delta := l - f
    if |delta| < threshold then .neutral
    else if 0 < delta then .positive else .negative

/-! ## Window planning (agua.py lines 338-348, the effective main)

Local time as seconds; now.replace(hour=8, minute=0, second=0,
microsecond=0) is the start of now's day plus 8 hours. -/

/-- today_8am: now with the time of day set to 08:00:00. -/
def today_anchor (now : ℤ) : ℤ :=
  now - now.emod 86400 + 28800

/-- The window chosen by main: the already-concluded 8→8 block. -/
def plan_window (now : ℤ) : ℤ × ℤ :=
  let a := today_anchor now
  if a ≤ now then (a - 86400, a) else (a - 2 * 86400, a - 86400)

/-- The initial or running best distance of the inner loop: the tolerance
before any candidate is found, then the best candidate's distance. -/
def best_delta0 (slot tol : ℤ) : Option (ℤ × α) → ℤ
  | none => tol
  | some q => |q.1 - slot|

/-! ## Unfolding the slot-building loop -/

/-- Unfolding of build_slots while the mark has not passed the end. -/
lemma build_slots_le {t e : ℤ} (h : t ≤ e) :
    build_slots t e = t :: build_slots (t + 1800) e := by
  conv_lhs => unfold build_slots
  simp [h]

/-- Unfolding of build_slots once the mark has passed the end. -/
lemma build_slots_gt {t e : ℤ} (h : e < t) : build_slots t e = [] := by
  conv_lhs => unfold build_slots
  simp [not_le.mpr h]

/-! ## Lemmas about safe_get -/

/-- The sleeps of the retry loop from attempt `i` are a run of consecutive
powers of the backoff base starting at exponent `i`, at most one per
remaining attempt. -/
lemma safe_get_run_sleeps (resp : ℕ → Resp ρ) (b : ℚ) :
    ∀ (r i : ℕ), ∃ k, k ≤ r ∧
      (safe_get_run resp b i r).2 = (List.range k).map (fun j => b ^ (i + j)) := by
  intro r
  induction r with
  | zero => intro i; exact ⟨0, by simp [safe_get_run]⟩
  | succ r ih =>
    intro i
    have step : ∀ tl, tl = (safe_get_run resp b (i + 1) r).2 →
        ∃ k, k ≤ r + 1 ∧
          b ^ i :: tl = (List.range k).map (fun j => b ^ (i + j)) := by
      intro tl htl
      obtain ⟨k, hk, he⟩ := ih (i + 1)
      refine ⟨k + 1, by omega, ?_⟩
      rw [htl, he, List.range_succ_eq_map, List.map_cons, List.map_map]
      have hhead : b ^ i = b ^ (i + 0) := by norm_num
      have htail : List.map (fun j => b ^ (i + 1 + j)) (List.range k)
          = List.map ((fun j => b ^ (i + j)) ∘ Nat.succ) (List.range k) := by
        apply List.map_congr_left
        intro j _
        show b ^ (i + 1 + j) = b ^ (i + Nat.succ j)
        congr 1
        omega
      rw [← hhead, ← htail]
    match hr : resp i with
    | .response code body =>
      by_cases h200 : code = 200
      · exact ⟨0, by simp [safe_get_run, hr, h200]⟩
      · by_cases hretry : retryable code
        · have := step (safe_get_run resp b (i + 1) r).2 rfl
          simpa [safe_get_run, hr, h200, hretry] using this
        · exact ⟨0, by simp [safe_get_run, hr, h200, hretry]⟩
    | .exc =>
      have := step (safe_get_run resp b (i + 1) r).2 rfl
      simpa [safe_get_run, hr] using this

/-- If no attempt among the first `r` from `i` answers 200, the retry loop
degrades to the empty list. -/
lemma safe_get_run_no200 (resp : ℕ → Resp ρ) (b : ℚ) :
    ∀ (r i : ℕ), (∀ j, j < r → ok200 (resp (i + j)) = false) →
      (safe_get_run resp b i r).1 = [] := by
  intro r
  induction r with
  | zero => intro i _; simp [safe_get_run]
  | succ r ih =>
    intro i h
    have hi : ok200 (resp i) = false := by simpa using h 0 (by omega)
    have hrec : (safe_get_run resp b (i + 1) r).1 = [] := by
      apply ih
      intro j hj
      have hx := h (j + 1) (by omega)
      have harith : i + (j + 1) = i + 1 + j := by omega
      rwa [harith] at hx
    match hr : resp i with
    | .response code body =>
      have h200 : code ≠ 200 := by
        intro hc; rw [hr, hc] at hi; simp [ok200] at hi
      by_cases hretry : retryable code
      · simpa [safe_get_run, hr, h200, hretry] using hrec
      · simp [safe_get_run, hr, h200, hretry]
    | .exc => simpa [safe_get_run, hr] using hrec

/-- A retryable status is never 200. -/
lemma retryable_ne_200 {c : ℕ} (h : retryable c = true) : c ≠ 200 := by
  intro hc
  rw [hc] at h
  simp [retryable] at h

/-- A transient attempt makes the retry loop move to the next attempt
without changing the final value. -/
lemma safe_get_run_transient (resp : ℕ → Resp ρ) (b : ℚ) (r i : ℕ)
    (h : transient (resp i) = true) :
    (safe_get_run resp b i (r + 1)).1 = (safe_get_run resp b (i + 1) r).1 := by
  match hr : resp i with
  | .response code body =>
    have hretry : retryable code = true := by simpa [transient, hr] using h
    simp [safe_get_run, hr, retryable_ne_200 hretry, hretry]
  | .exc => simp [safe_get_run, hr]

/-- A non-retryable, non-200 attempt stops the retry loop at once with []. -/
lemma safe_get_run_hard (resp : ℕ → Resp ρ) (b : ℚ) (r i : ℕ)
    (h : hardFail (resp i) = true) :
    (safe_get_run resp b i (r + 1)).1 = ([] : List ρ) := by
  match hr : resp i with
  | .response code body =>
    rw [hr] at h
    simp only [hardFail, ok200, transient, Bool.and_eq_true, Bool.not_eq_true'] at h
    obtain ⟨h200, hretry⟩ := h
    have hne : code ≠ 200 := by simpa using h200
    simp [safe_get_run, hr, hne, hretry]
  | .exc =>
    rw [hr] at h
    simp [hardFail, transient] at h

/-- Transient attempts followed by a hard failure inside the budget also
degrade the retry loop to []. -/
lemma safe_get_run_hard_after (resp : ℕ → Resp ρ) (b : ℚ) :
    ∀ (j i r : ℕ), j < r → hardFail (resp (i + j)) = true →
      (∀ m, m < j → transient (resp (i + m)) = true) →
      (safe_get_run resp b i r).1 = [] := by
  intro j
  induction j with
  | zero =>
    intro i r hr hhard _
    obtain ⟨r', rfl⟩ : ∃ r', r = r' + 1 := ⟨r - 1, by omega⟩
    exact safe_get_run_hard resp b r' i (by simpa using hhard)
  | succ j ih =>
    intro i r hr hhard htr
    obtain ⟨r', rfl⟩ : ∃ r', r = r' + 1 := ⟨r - 1, by omega⟩
    rw [safe_get_run_transient resp b r' i (by simpa using htr 0 (by omega))]
    apply ih (i + 1) r' (by omega)
    · have harith : i + (j + 1) = i + 1 + j := by omega
      rwa [harith] at hhard
    · intro m hm
      have hx := htr (m + 1) (by omega)
      have harith : i + (m + 1) = i + 1 + m := by omega
      rwa [harith] at hx

/-! ## Lemmas about fetch_feed -/

/-- A nonempty run of exactly-full pages followed by an empty page yields
exactly the concatenation of the full pages. -/
lemma fetch_feed_full_stop (limit : ℕ) (hl : 0 < limit) :
    ∀ (bs : List (List ρ)) (rest : List (List ρ)),
      (∀ b ∈ bs, b.length = limit) →
      fetch_feed limit (bs ++ [] :: rest) = bs.flatten := by
  intro bs
  induction bs with
  | nil => intro rest _; simp [fetch_feed]
  | cons b bs ih =>
    intro rest hfull
    have hb : b.length = limit := hfull b (by simp)
    have hne : b.isEmpty = false := by
      cases b with
      | nil => simp at hb; omega
      | cons x xs => simp
    have hnlt : ¬b.length < limit := by omega
    rw [List.cons_append,
      show fetch_feed limit (b :: (bs ++ [] :: rest))
          = b ++ fetch_feed limit (bs ++ [] :: rest) by
        simp [fetch_feed, hne, hnlt],
      ih rest (fun q hq => hfull q (by simp [hq])), List.flatten_cons]

/-! ## The single pass equals the per-slot reference

The inner while loop consumes exactly the samples whose instant has not
passed slot + tol, and its best candidate is the strict-tolerance nearest
over that consumed prefix; with slots 30 minutes apart and tolerance at
most half the cadence, nothing consumed could still serve a later slot. -/

/-- The inner loop equals: scan the prefix of samples not past slot + tol
with the strict nearest comparator, and leave the rest untouched. -/
lemma slot_pick_spec (slot tol : ℤ) :
    ∀ (vs : List (ℤ × α)) (o : Option (ℤ × α)),
      (∀ q, o = some q → |q.1 - slot| < tol) →
      slot_pick slot tol (o.map (fun p => p.2)) (best_delta0 slot tol o) vs
        = ((nearest_strict slot tol o
              (vs.takeWhile (fun p => decide (p.1 ≤ slot + tol)))).map (fun p => p.2),
           vs.dropWhile (fun p => decide (p.1 ≤ slot + tol))) := by
  intro vs
  induction vs with
  | nil => intro o _; cases o <;> simp [slot_pick, nearest_strict]
  | cons hd rest ih =>
    intro o ho
    obtain ⟨vt, vv⟩ := hd
    by_cases hbr : tol < vt - slot
    · have htw : List.takeWhile (fun p : ℤ × α => decide (p.1 ≤ slot + tol)) ((vt, vv) :: rest)
          = [] := by
        rw [List.takeWhile_cons]
        simp only [decide_eq_true_eq]
        rw [if_neg (by omega)]
      have hdw : List.dropWhile (fun p : ℤ × α => decide (p.1 ≤ slot + tol)) ((vt, vv) :: rest)
          = (vt, vv) :: rest := by
        rw [List.dropWhile_cons]
        simp only [decide_eq_true_eq]
        rw [if_neg (by omega)]
      rw [htw, hdw]
      cases o <;> simp [slot_pick, hbr, nearest_strict]
    · have htw : List.takeWhile (fun p : ℤ × α => decide (p.1 ≤ slot + tol)) ((vt, vv) :: rest)
          = (vt, vv) :: List.takeWhile (fun p : ℤ × α => decide (p.1 ≤ slot + tol)) rest := by
        rw [List.takeWhile_cons]
        simp only [decide_eq_true_eq]
        rw [if_pos (by omega)]
      have hdw : List.dropWhile (fun p : ℤ × α => decide (p.1 ≤ slot + tol)) ((vt, vv) :: rest)
          = List.dropWhile (fun p : ℤ × α => decide (p.1 ≤ slot + tol)) rest := by
        rw [List.dropWhile_cons]
        simp only [decide_eq_true_eq]
        rw [if_pos (by omega)]
      rw [htw, hdw]
      cases o with
      | none =>
        by_cases helig : |vt - slot| < tol
        · have lhs : slot_pick slot tol (Option.map (fun p : ℤ × α => p.2) none)
                (best_delta0 slot tol (none : Option (ℤ × α))) ((vt, vv) :: rest)
              = slot_pick slot tol (some vv) |vt - slot| rest := by
            simp only [Option.map_none', best_delta0, slot_pick]
            rw [if_neg hbr, if_pos ⟨by omega, helig⟩]
          have hns : nearest_strict slot tol none
                ((vt, vv) :: List.takeWhile (fun p : ℤ × α => decide (p.1 ≤ slot + tol)) rest)
              = nearest_strict slot tol (some (vt, vv))
                (List.takeWhile (fun p : ℤ × α => decide (p.1 ≤ slot + tol)) rest) := by
            simp only [nearest_strict]
            rw [if_pos helig]
          have hih := ih (some (vt, vv)) (by intro q hq; cases hq; simpa using helig)
          simp only [Option.map_some', best_delta0] at hih
          rw [lhs, hns, hih]
        · have lhs : slot_pick slot tol (Option.map (fun p : ℤ × α => p.2) none)
                (best_delta0 slot tol (none : Option (ℤ × α))) ((vt, vv) :: rest)
              = slot_pick slot tol none tol rest := by
            simp only [Option.map_none', best_delta0, slot_pick]
            rw [if_neg hbr, if_neg (by intro hc; exact helig (by omega))]
          have hns : nearest_strict slot tol none
                ((vt, vv) :: List.takeWhile (fun p : ℤ × α => decide (p.1 ≤ slot + tol)) rest)
              = nearest_strict slot tol none
                (List.takeWhile (fun p : ℤ × α => decide (p.1 ≤ slot + tol)) rest) := by
            simp only [nearest_strict]
            rw [if_neg helig]
          have hih := ih none (by intro q hq; cases hq)
          simp only [Option.map_none', best_delta0] at hih
          rw [lhs, hns, hih]
      | some q =>
        have hq : |q.1 - slot| < tol := ho q rfl
        by_cases helig : |vt - slot| < tol ∧ |vt - slot| < |q.1 - slot|
        · have lhs : slot_pick slot tol (Option.map (fun p : ℤ × α => p.2) (some q))
                (best_delta0 slot tol (some q)) ((vt, vv) :: rest)
              = slot_pick slot tol (some vv) |vt - slot| rest := by
            simp only [Option.map_some', best_delta0, slot_pick]
            rw [if_neg hbr, if_pos ⟨by omega, helig.2⟩]
          have hns : nearest_strict slot tol (some q)
                ((vt, vv) :: List.takeWhile (fun p : ℤ × α => decide (p.1 ≤ slot + tol)) rest)
              = nearest_strict slot tol (some (vt, vv))
                (List.takeWhile (fun p : ℤ × α => decide (p.1 ≤ slot + tol)) rest) := by
            simp only [nearest_strict]
            rw [if_pos helig]
          have hih := ih (some (vt, vv)) (by intro q' hq'; cases hq'; simpa using helig.1)
          simp only [Option.map_some', best_delta0] at hih
          rw [lhs, hns, hih]
        · have lhs : slot_pick slot tol (Option.map (fun p : ℤ × α => p.2) (some q))
                (best_delta0 slot tol (some q)) ((vt, vv) :: rest)
              = slot_pick slot tol (some q.2) |q.1 - slot| rest := by
            simp only [Option.map_some', best_delta0, slot_pick]
            rw [if_neg hbr, if_neg (by intro hc; exact helig ⟨by omega, hc.2⟩)]
          have hns : nearest_strict slot tol (some q)
                ((vt, vv) :: List.takeWhile (fun p : ℤ × α => decide (p.1 ≤ slot + tol)) rest)
              = nearest_strict slot tol (some q)
                (List.takeWhile (fun p : ℤ × α => decide (p.1 ≤ slot + tol)) rest) := by
            simp only [nearest_strict]
            rw [if_neg helig]
          have hih := ih (some q) ho
          simp only [Option.map_some', best_delta0] at hih
          rw [lhs, hns, hih]

/-- Scanning an appended list is scanning the second part from the first
part's result. -/
lemma nearest_strict_append (slot tol : ℤ) :
    ∀ (P R : List (ℤ × α)) (o : Option (ℤ × α)),
      nearest_strict slot tol o (P ++ R)
        = nearest_strict slot tol (nearest_strict slot tol o P) R := by
  intro P
  induction P with
  | nil => intro R o; cases o <;> simp [nearest_strict]
  | cons p P' ih =>
    intro R o
    cases o with
    | none =>
      rw [List.cons_append]
      by_cases h : |p.1 - slot| < tol
      · simp only [nearest_strict, if_pos h]
        exact ih R (some p)
      · simp only [nearest_strict, if_neg h]
        exact ih R none
    | some q =>
      rw [List.cons_append]
      by_cases h : |p.1 - slot| < tol ∧ |p.1 - slot| < |q.1 - slot|
      · simp only [nearest_strict, if_pos h]
        exact ih R (some p)
      · simp only [nearest_strict, if_neg h]
        exact ih R (some q)

/-- Samples all out of strict tolerance leave the scan state unchanged. -/
lemma nearest_strict_skip (slot tol : ℤ) :
    ∀ (P : List (ℤ × α)) (o : Option (ℤ × α)),
      (∀ p ∈ P, ¬(|p.1 - slot| < tol)) →
      nearest_strict slot tol o P = o := by
  intro P
  induction P with
  | nil => intro o _; cases o <;> simp [nearest_strict]
  | cons p P' ih =>
    intro o h
    have hp : ¬(|p.1 - slot| < tol) := h p (by simp)
    have htail : ∀ q ∈ P', ¬(|q.1 - slot| < tol) := fun q hq => h q (by simp [hq])
    cases o with
    | none => simp only [nearest_strict, if_neg hp]; exact ih none htail
    | some q =>
      simp only [nearest_strict]
      rw [if_neg (by intro hc; exact hp hc.1)]
      exact ih (some q) htail

/-- In a sorted series, everything the inner loop leaves behind is past
slot + tol. -/
lemma dropWhile_past (slot tol : ℤ) :
    ∀ (vs : List (ℤ × α)), List.Pairwise (fun p q : ℤ × α => p.1 ≤ q.1) vs →
      ∀ p ∈ vs.dropWhile (fun p => decide (p.1 ≤ slot + tol)), slot + tol < p.1 := by
  intro vs
  induction vs with
  | nil => intro _ p hp; simp at hp
  | cons x rest ih =>
    intro hsort p hp
    rw [List.dropWhile_cons] at hp
    by_cases hx : x.1 ≤ slot + tol
    · rw [if_pos (by simpa using hx)] at hp
      exact ih hsort.of_cons p hp
    · rw [if_neg (by simpa using hx)] at hp
      rcases List.mem_cons.mp hp with h | h
      · subst h; omega
      · have : x.1 ≤ p.1 := (List.pairwise_cons.mp hsort).1 p h
        omega

/-- One step of the equivalence: with sorted samples and slots at least a
cadence apart, the pass and the per-slot reference agree. -/
lemma downsample_go_eq_ref (tol : ℤ) (htol0 : 0 ≤ tol) (htol : 2 * tol ≤ 1800) :
    ∀ (slots : List ℤ) (vs : List (ℤ × α)),
      List.Pairwise (fun a b => a + 1800 ≤ b) slots →
      List.Pairwise (fun p q : ℤ × α => p.1 ≤ q.1) vs →
      downsample_go tol slots vs = ref_align tol slots vs := by
  intro slots
  induction slots with
  | nil => intro vs _ _; simp [downsample_go, ref_align]
  | cons s slots' ih =>
    intro vs hslots hsort
    have hpick := slot_pick_spec s tol vs none (by intro q hq; cases hq)
    simp only [Option.map_none', best_delta0] at hpick
    set P := vs.takeWhile (fun p : ℤ × α => decide (p.1 ≤ s + tol)) with hP
    set R := vs.dropWhile (fun p : ℤ × α => decide (p.1 ≤ s + tol)) with hR
    have hsplit : P ++ R = vs := List.takeWhile_append_dropWhile _ _
    have hPle : ∀ p ∈ P, p.1 ≤ s + tol := by
      intro p hp
      have := List.mem_takeWhile_imp hp
      simpa using this
    have hRgt : ∀ p ∈ R, s + tol < p.1 := dropWhile_past s tol vs hsort
    have hRsort : List.Pairwise (fun p q : ℤ × α => p.1 ≤ q.1) R :=
      hsort.sublist (List.dropWhile_sublist _)
    have hRskip : ∀ p ∈ R, ¬(|p.1 - s| < tol) := by
      intro p hp hc
      have := hRgt p hp
      have habs : p.1 - s ≤ |p.1 - s| := le_abs_self _
      omega
    have hfull : nearest_strict s tol none vs = nearest_strict s tol none P := by
      rw [← hsplit, nearest_strict_append, nearest_strict_skip s tol R _ hRskip]
    have htail : ref_align tol slots' R = ref_align tol slots' vs := by
      apply List.filterMap_congr
      intro s' hs'
      have hgap : s + 1800 ≤ s' := (List.pairwise_cons.mp hslots).1 s' hs'
      have hPskip : ∀ p ∈ P, ¬(|p.1 - s'| < tol) := by
        intro p hp hc
        have hple := hPle p hp
        have habs : -(p.1 - s') ≤ |p.1 - s'| := neg_le_abs _
        omega
      rw [← hsplit, nearest_strict_append, nearest_strict_skip s' tol P _ hPskip]
    cases hcase : nearest_strict s tol none P with
    | none =>
      have lhs : downsample_go tol (s :: slots') vs = downsample_go tol slots' R := by
        simp only [downsample_go, hpick, hcase, Option.map_none']
      have rhs : ref_align tol (s :: slots') vs = ref_align tol slots' vs := by
        simp only [ref_align, List.filterMap_cons, hfull, hcase, Option.map_none']
      rw [lhs, rhs, ih R hslots.of_cons hRsort, htail]
    | some p =>
      have lhs : downsample_go tol (s :: slots') vs
          = (s, p.2) :: downsample_go tol slots' R := by
        simp only [downsample_go, hpick, hcase, Option.map_some']
      have rhs : ref_align tol (s :: slots') vs = (s, p.2) :: ref_align tol slots' vs := by
        simp only [ref_align, List.filterMap_cons, hfull, hcase, Option.map_some']
      rw [lhs, rhs, ih R hslots.of_cons hRsort, htail]

/-! ## Structure of the slot grid -/

/-- Every generated slot lies between the loop start and the window end. -/
lemma build_slots_bounds : ∀ (fuel : ℕ) (t e : ℤ), (e + 1800 - t).toNat ≤ fuel →
    ∀ s ∈ build_slots t e, t ≤ s ∧ s ≤ e := by
  intro fuel
  induction fuel with
  | zero =>
    intro t e hf s hs
    rw [build_slots_gt (by omega)] at hs
    simp at hs
  | succ fuel ih =>
    intro t e hf s hs
    by_cases ht : t ≤ e
    · rw [build_slots_le ht] at hs
      rcases List.mem_cons.mp hs with h | h
      · subst h; omega
      · have := ih (t + 1800) e (by omega) s h
        omega
    · rw [build_slots_gt (by omega)] at hs
      simp at hs

/-- Every generated slot lies between the loop start and the window end. -/
lemma mem_build_slots_bounds {t e s : ℤ} (hs : s ∈ build_slots t e) : t ≤ s ∧ s ≤ e :=
  build_slots_bounds (e + 1800 - t).toNat t e le_rfl s hs

/-- Consecutive slots are exactly a cadence apart, so all pairs are at
least a cadence apart. -/
lemma build_slots_pairwise : ∀ (fuel : ℕ) (t e : ℤ), (e + 1800 - t).toNat ≤ fuel →
    List.Pairwise (fun a b => a + 1800 ≤ b) (build_slots t e) := by
  intro fuel
  induction fuel with
  | zero =>
    intro t e hf
    rw [build_slots_gt (by omega)]
    exact List.Pairwise.nil
  | succ fuel ih =>
    intro t e hf
    by_cases ht : t ≤ e
    · rw [build_slots_le ht]
      refine List.pairwise_cons.mpr ⟨?_, ih (t + 1800) e (by omega)⟩
      intro s hs
      exact (build_slots_bounds fuel (t + 1800) e (by omega) s hs).1
    · rw [build_slots_gt (by omega)]
      exact List.Pairwise.nil

/-- The slot grid from t to e, with fuel discharged. -/
lemma build_slots_pairwise' (t e : ℤ) :
    List.Pairwise (fun a b => a + 1800 ≤ b) (build_slots t e) :=
  build_slots_pairwise (e + 1800 - t).toNat t e le_rfl

/-- Every slot is the start plus a whole number of cadences. -/
lemma build_slots_shape : ∀ (fuel : ℕ) (t e : ℤ), (e + 1800 - t).toNat ≤ fuel →
    ∀ s ∈ build_slots t e, ∃ k : ℕ, s = t + 1800 * k := by
  intro fuel
  induction fuel with
  | zero =>
    intro t e hf s hs
    rw [build_slots_gt (by omega)] at hs
    simp at hs
  | succ fuel ih =>
    intro t e hf s hs
    by_cases ht : t ≤ e
    · rw [build_slots_le ht] at hs
      rcases List.mem_cons.mp hs with h | h
      · exact ⟨0, by omega⟩
      · obtain ⟨k, hk⟩ := ih (t + 1800) e (by omega) s h
        exact ⟨k + 1, by push_cast; omega⟩
    · rw [build_slots_gt (by omega)] at hs
      simp at hs

/-- Conversely, every start-plus-cadences point inside the window is a slot. -/
lemma build_slots_mem_of : ∀ (k : ℕ) (t e : ℤ), t + 1800 * k ≤ e →
    (t + 1800 * k) ∈ build_slots t e := by
  intro k
  induction k with
  | zero =>
    intro t e hk
    rw [build_slots_le (by omega)]
    simp
  | succ k ih =>
    intro t e hk
    have ht : t ≤ e := by
      have : (0 : ℤ) ≤ 1800 * (k + 1) := by positivity
      push_cast at hk
      omega
    rw [build_slots_le ht]
    have := ih (t + 1800) e (by push_cast at hk ⊢; omega)
    refine List.mem_cons.mpr (Or.inr ?_)
    have harith : t + 1800 + 1800 * (k : ℤ) = t + 1800 * ((k : ℤ) + 1) := by ring
    rw [harith] at this
    push_cast
    exact this

/-- The full pass equals the per-slot reference aligner: the claim's
refinement, with strict tolerance and tolerance at most half the cadence. -/
lemma downsample_eq_ref (vs : List (ℤ × α)) (startL endL tolMin : ℤ)
    (hsort : List.Pairwise (fun p q : ℤ × α => p.1 ≤ q.1) vs)
    (h0 : 0 ≤ tolMin) (h15 : tolMin ≤ 15) :
    downsample_30min vs startL endL tolMin
      = ref_align (tolMin * 60) (build_slots startL endL) vs := by
  rw [downsample_30min]
  cases vs with
  | nil =>
    rw [if_pos (by simp)]
    rw [show ref_align (tolMin * 60) (build_slots startL endL) ([] : List (ℤ × α)) = [] by
      apply List.filterMap_eq_nil_iff.mpr
      intro s _
      simp [nearest_strict]]
  | cons p rest =>
    rw [if_neg (by simp)]
    exact downsample_go_eq_ref (tolMin * 60) (by omega) (by omega)
      (build_slots startL endL) (p :: rest) (build_slots_pairwise' startL endL) hsort

/-! ## What the reference scan selects -/

/-- The scan comes back empty only when it started empty and nothing in
the list is strictly within tolerance. -/
lemma nearest_strict_eq_none (slot tol : ℤ) :
    ∀ (vs : List (ℤ × α)) (o : Option (ℤ × α)),
      nearest_strict slot tol o vs = none →
      o = none ∧ ∀ q ∈ vs, ¬(|q.1 - slot| < tol) := by
  intro vs
  induction vs with
  | nil =>
    intro o h
    simp only [nearest_strict] at h
    exact ⟨h, by simp⟩
  | cons hd rest ih =>
    intro o h
    cases o with
    | none =>
      by_cases helig : |hd.1 - slot| < tol
      · rw [show nearest_strict slot tol none (hd :: rest)
            = nearest_strict slot tol (some hd) rest by
          simp only [nearest_strict]; rw [if_pos helig]] at h
        exact absurd (ih (some hd) h).1 (by simp)
      · rw [show nearest_strict slot tol none (hd :: rest)
            = nearest_strict slot tol none rest by
          simp only [nearest_strict]; rw [if_neg helig]] at h
        refine ⟨rfl, ?_⟩
        intro q hq
        rcases List.mem_cons.mp hq with hq | hq
        · subst hq; exact helig
        · exact (ih none h).2 q hq
    | some q0 =>
      by_cases hcond : |hd.1 - slot| < tol ∧ |hd.1 - slot| < |q0.1 - slot|
      · rw [show nearest_strict slot tol (some q0) (hd :: rest)
            = nearest_strict slot tol (some hd) rest by
          simp only [nearest_strict]; rw [if_pos hcond]] at h
        exact absurd (ih (some hd) h).1 (by simp)
      · rw [show nearest_strict slot tol (some q0) (hd :: rest)
            = nearest_strict slot tol (some q0) rest by
          simp only [nearest_strict]; rw [if_neg hcond]] at h
        exact absurd (ih (some q0) h).1 (by simp)

/-- What the scan's answer satisfies: it is an eligible sample (or the
seed), of minimal distance among the eligible, improving strictly on the
seed or equal to it, and the earliest in time among exact-distance ties. -/
lemma nearest_strict_eq_some (slot tol : ℤ) :
    ∀ (vs : List (ℤ × α)) (o : Option (ℤ × α)) (p : ℤ × α),
      List.Pairwise (fun a b : ℤ × α => a.1 ≤ b.1) vs →
      (∀ c, o = some c → |c.1 - slot| < tol ∧ ∀ r ∈ vs, c.1 ≤ r.1) →
      nearest_strict slot tol o vs = some p →
      (p ∈ vs ∨ o = some p) ∧ |p.1 - slot| < tol ∧
      (∀ q ∈ vs, |q.1 - slot| < tol → |p.1 - slot| ≤ |q.1 - slot|) ∧
      (∀ c, o = some c → |p.1 - slot| ≤ |c.1 - slot| ∧ (|p.1 - slot| = |c.1 - slot| → p = c)) ∧
      (∀ q ∈ vs, |q.1 - slot| < tol → |q.1 - slot| = |p.1 - slot| → p.1 ≤ q.1) := by
  intro vs
  induction vs with
  | nil =>
    intro o p _ ho h
    simp only [nearest_strict] at h
    subst h
    refine ⟨Or.inr rfl, (ho p rfl).1, by simp, ?_, by simp⟩
    intro c hc
    cases hc
    exact ⟨le_rfl, fun _ => rfl⟩
  | cons hd rest ih =>
    intro o p hsort ho h
    have hsr : List.Pairwise (fun a b : ℤ × α => a.1 ≤ b.1) rest := hsort.of_cons
    have hhdle : ∀ r ∈ rest, hd.1 ≤ r.1 := (List.pairwise_cons.mp hsort).1
    cases o with
    | none =>
      by_cases helig : |hd.1 - slot| < tol
      · rw [show nearest_strict slot tol none (hd :: rest)
            = nearest_strict slot tol (some hd) rest by
          simp only [nearest_strict]; rw [if_pos helig]] at h
        obtain ⟨hmem, hel, hmin, hcur, htie⟩ :=
          ih (some hd) p hsr (by intro c hc; cases hc; exact ⟨helig, hhdle⟩) h
        refine ⟨?_, hel, ?_, by simp, ?_⟩
        · rcases hmem with hm | hm
          · exact Or.inl (List.mem_cons.mpr (Or.inr hm))
          · obtain rfl := Option.some.inj hm
            exact Or.inl (by simp)
        · intro q hq hqel
          rcases List.mem_cons.mp hq with hq | hq
          · rw [hq]; exact (hcur hd rfl).1
          · exact hmin q hq hqel
        · intro q hq hqel hqeq
          rcases List.mem_cons.mp hq with hq | hq
          · subst hq
            have := (hcur q rfl).2 hqeq.symm
            rw [this]
          · exact htie q hq hqel hqeq
      · rw [show nearest_strict slot tol none (hd :: rest)
            = nearest_strict slot tol none rest by
          simp only [nearest_strict]; rw [if_neg helig]] at h
        obtain ⟨hmem, hel, hmin, _, htie⟩ := ih none p hsr (by intro c hc; cases hc) h
        refine ⟨?_, hel, ?_, by simp, ?_⟩
        · rcases hmem with hm | hm
          · exact Or.inl (List.mem_cons.mpr (Or.inr hm))
          · cases hm
        · intro q hq hqel
          rcases List.mem_cons.mp hq with hq | hq
          · subst hq; exact absurd hqel helig
          · exact hmin q hq hqel
        · intro q hq hqel hqeq
          rcases List.mem_cons.mp hq with hq | hq
          · subst hq; exact absurd hqel helig
          · exact htie q hq hqel hqeq
    | some q0 =>
      obtain ⟨hq0, hq0le⟩ := ho q0 rfl
      have hq0r : ∀ r ∈ rest, q0.1 ≤ r.1 := fun r hr => hq0le r (List.mem_cons.mpr (Or.inr hr))
      by_cases hcond : |hd.1 - slot| < tol ∧ |hd.1 - slot| < |q0.1 - slot|
      · rw [show nearest_strict slot tol (some q0) (hd :: rest)
            = nearest_strict slot tol (some hd) rest by
          simp only [nearest_strict]; rw [if_pos hcond]] at h
        obtain ⟨hmem, hel, hmin, hcur, htie⟩ :=
          ih (some hd) p hsr (by intro c hc; cases hc; exact ⟨hcond.1, hhdle⟩) h
        have hphd : |p.1 - slot| ≤ |hd.1 - slot| := (hcur hd rfl).1
        refine ⟨?_, hel, ?_, ?_, ?_⟩
        · rcases hmem with hm | hm
          · exact Or.inl (List.mem_cons.mpr (Or.inr hm))
          · obtain rfl := Option.some.inj hm
            exact Or.inl (by simp)
        · intro q hq hqel
          rcases List.mem_cons.mp hq with hq | hq
          · subst hq; exact hphd
          · exact hmin q hq hqel
        · intro c hc
          cases hc
          constructor
          · omega
          · intro hceq; omega
        · intro q hq hqel hqeq
          rcases List.mem_cons.mp hq with hq | hq
          · subst hq
            have := (hcur q rfl).2 hqeq.symm
            rw [this]
          · exact htie q hq hqel hqeq
      · rw [show nearest_strict slot tol (some q0) (hd :: rest)
            = nearest_strict slot tol (some q0) rest by
          simp only [nearest_strict]; rw [if_neg hcond]] at h
        obtain ⟨hmem, hel, hmin, hcur, htie⟩ :=
          ih (some q0) p hsr (by intro c hc; cases hc; exact ⟨hq0, hq0r⟩) h
        have hpq0 : |p.1 - slot| ≤ |q0.1 - slot| := (hcur q0 rfl).1
        refine ⟨?_, hel, ?_, ?_, ?_⟩
        · rcases hmem with hm | hm
          · exact Or.inl (List.mem_cons.mpr (Or.inr hm))
          · exact Or.inr hm
        · intro q hq hqel
          rcases List.mem_cons.mp hq with hq | hq
          · subst hq
            have hge : |q0.1 - slot| ≤ |q.1 - slot| := by
              by_contra hx
              exact hcond ⟨hqel, by omega⟩
            omega
          · exact hmin q hq hqel
        · intro c hc
          cases hc
          exact hcur q0 rfl
        · intro q hq hqel hqeq
          rcases List.mem_cons.mp hq with hq | hq
          · subst hq
            have hge : |q0.1 - slot| ≤ |q.1 - slot| := by
              by_contra hx
              exact hcond ⟨hqel, by omega⟩
            have hpeqq0 : |p.1 - slot| = |q0.1 - slot| := by omega
            have := (hcur q0 rfl).2 hpeqq0
            subst this
            exact hq0le q (by simp)
          · exact htie q hq hqel hqeq

/-- Every aligned point's timestamp is one of the slots. -/
lemma ref_align_fst_mem (tol : ℤ) (slots : List ℤ) (vs : List (ℤ × α)) :
    ∀ r ∈ ref_align tol slots vs, r.1 ∈ slots := by
  intro r hr
  obtain ⟨s, hs, hmap⟩ := List.mem_filterMap.mp hr
  cases hn : nearest_strict s tol none vs with
  | none => rw [hn] at hmap; simp at hmap
  | some p =>
    rw [hn] at hmap
    simp only [Option.map_some', Option.some.injEq] at hmap
    rw [← hmap]
    exact hs

/-- Restricting the reference output to one slot of the grid isolates that
slot's own scan result. -/
lemma ref_align_filter (tol : ℤ) :
    ∀ (slots : List ℤ) (vs : List (ℤ × α)) (slot : ℤ), slots.Nodup → slot ∈ slots →
      (ref_align tol slots vs).filter (fun r => decide (r.1 = slot))
        = ((nearest_strict slot tol none vs).map (fun p => (slot, p.2))).toList := by
  intro slots
  induction slots with
  | nil => intro vs slot _ hmem; simp at hmem
  | cons s rest ih =>
    intro vs slot hnd hmem
    have hnotrest : ∀ r ∈ ref_align tol rest vs, decide (r.1 = slot) = false →
        True := fun _ _ _ => trivial
    by_cases hss : s = slot
    · subst hss
      have hsnot : s ∉ rest := (List.nodup_cons.mp hnd).1
      have hrest_nil : (ref_align tol rest vs).filter (fun r => decide (r.1 = s)) = [] := by
        apply List.filter_eq_nil_iff.mpr
        intro r hr
        have := ref_align_fst_mem tol rest vs r hr
        simp only [decide_eq_true_eq]
        intro hx
        rw [hx] at this
        exact hsnot this
      cases hn : nearest_strict s tol none vs with
      | none =>
        rw [show ref_align tol (s :: rest) vs = ref_align tol rest vs by
          simp only [ref_align, List.filterMap_cons, hn, Option.map_none']]
        rw [hrest_nil]
        simp
      | some p =>
        rw [show ref_align tol (s :: rest) vs = (s, p.2) :: ref_align tol rest vs by
          simp only [ref_align, List.filterMap_cons, hn, Option.map_some']]
        rw [List.filter_cons_of_pos (by simp), hrest_nil]
        simp
    · have hmem' : slot ∈ rest := by
        rcases List.mem_cons.mp hmem with h | h
        · exact absurd h.symm hss
        · exact h
      have hihs := ih vs slot (List.nodup_cons.mp hnd).2 hmem'
      cases hn : nearest_strict s tol none vs with
      | none =>
        rw [show ref_align tol (s :: rest) vs = ref_align tol rest vs by
          simp only [ref_align, List.filterMap_cons, hn, Option.map_none']]
        exact hihs
      | some p =>
        rw [show ref_align tol (s :: rest) vs = (s, p.2) :: ref_align tol rest vs by
          simp only [ref_align, List.filterMap_cons, hn, Option.map_some']]
        rw [List.filter_cons_of_neg (by simpa using hss)]
        exact hihs

/-- The slot grid has no duplicate slots. -/
lemma build_slots_nodup (t e : ℤ) : (build_slots t e).Nodup :=
  (build_slots_pairwise' t e).imp (fun h => by omega)

/-- A filterMap in which only one given element of a duplicate-free list
can produce a value is that element's own output. -/
lemma filterMap_unique {β : Type} :
    ∀ (l : List ℤ) (f : ℤ → Option β) (s0 : ℤ), s0 ∈ l → l.Nodup →
      (∀ s ∈ l, s ≠ s0 → f s = none) →
      l.filterMap f = (f s0).toList := by
  intro l
  induction l with
  | nil => intro f s0 h0; simp at h0
  | cons a rest ih =>
    intro f s0 h0 hnd hother
    by_cases ha : a = s0
    · subst ha
      have hrest : rest.filterMap f = [] := by
        apply List.filterMap_eq_nil_iff.mpr
        intro s hs
        exact hother s (by simp [hs]) (by
          intro hx
          rw [hx] at hs
          exact (List.nodup_cons.mp hnd).1 hs)
      cases hfa : f a with
      | none => rw [List.filterMap_cons, hfa, hrest]; simp
      | some b => rw [List.filterMap_cons, hfa, hrest]; simp
    · have h0' : s0 ∈ rest := by
        rcases List.mem_cons.mp h0 with h | h
        · exact absurd h.symm ha
        · exact h
      rw [List.filterMap_cons, hother a (by simp) ha]
      exact ih f s0 h0' (List.nodup_cons.mp hnd).2
        (fun s hs hne => hother s (by simp [hs]) hne)

/-! ## Folded extrema, as Python's min and max of a nonempty list -/

/-- The running minimum never exceeds its seed. -/
lemma foldl_min_le_init : ∀ (l : List ℚ) (a : ℚ), l.foldl Min.min a ≤ a := by
  intro l
  induction l with
  | nil => intro a; simp
  | cons b l ih =>
    intro a
    calc (b :: l).foldl Min.min a = l.foldl Min.min (Min.min a b) := by simp [List.foldl_cons]
    _ ≤ Min.min a b := ih _
    _ ≤ a := min_le_left _ _

/-- The running minimum is below every element folded in. -/
lemma foldl_min_le_mem : ∀ (l : List ℚ) (a x : ℚ), x ∈ l → l.foldl Min.min a ≤ x := by
  intro l
  induction l with
  | nil => intro a x hx; simp at hx
  | cons b l ih =>
    intro a x hx
    rcases List.mem_cons.mp hx with h | h
    · subst h
      calc (x :: l).foldl Min.min a = l.foldl Min.min (Min.min a x) := by simp [List.foldl_cons]
      _ ≤ Min.min a x := foldl_min_le_init _ _
      _ ≤ x := min_le_right _ _
    · simpa [List.foldl_cons] using ih (Min.min a b) x h

/-- The running minimum is the seed or one of the folded elements. -/
lemma foldl_min_mem : ∀ (l : List ℚ) (a : ℚ), l.foldl Min.min a = a ∨ l.foldl Min.min a ∈ l := by
  intro l
  induction l with
  | nil => intro a; simp
  | cons b l ih =>
    intro a
    rcases ih (Min.min a b) with h | h
    · rcases min_choice a b with hm | hm
      · refine Or.inl ?_
        rw [List.foldl_cons, h, hm]
      · refine Or.inr ?_
        rw [List.foldl_cons, h, hm]
        simp
    · refine Or.inr (List.mem_cons.mpr (Or.inr ?_))
      rw [List.foldl_cons]
      exact h

/-- The running maximum is at least its seed. -/
lemma foldl_max_ge_init : ∀ (l : List ℚ) (a : ℚ), a ≤ l.foldl Max.max a := by
  intro l
  induction l with
  | nil => intro a; simp
  | cons b l ih =>
    intro a
    calc a ≤ Max.max a b := le_max_left _ _
    _ ≤ l.foldl Max.max (Max.max a b) := ih _
    _ = (b :: l).foldl Max.max a := by simp [List.foldl_cons]

/-- The running maximum is above every element folded in. -/
lemma foldl_max_ge_mem : ∀ (l : List ℚ) (a x : ℚ), x ∈ l → x ≤ l.foldl Max.max a := by
  intro l
  induction l with
  | nil => intro a x hx; simp at hx
  | cons b l ih =>
    intro a x hx
    rcases List.mem_cons.mp hx with h | h
    · subst h
      calc x ≤ Max.max a x := le_max_right _ _
      _ ≤ l.foldl Max.max (Max.max a x) := foldl_max_ge_init _ _
      _ = (x :: l).foldl Max.max a := by simp [List.foldl_cons]
    · simpa [List.foldl_cons] using ih (Max.max a b) x h

/-- The running maximum is the seed or one of the folded elements. -/
lemma foldl_max_mem : ∀ (l : List ℚ) (a : ℚ), l.foldl Max.max a = a ∨ l.foldl Max.max a ∈ l := by
  intro l
  induction l with
  | nil => intro a; simp
  | cons b l ih =>
    intro a
    rcases ih (Max.max a b) with h | h
    · rcases max_choice a b with hm | hm
      · refine Or.inl ?_
        rw [List.foldl_cons, h, hm]
      · refine Or.inr ?_
        rw [List.foldl_cons, h, hm]
        simp
    · refine Or.inr (List.mem_cons.mpr (Or.inr ?_))
      rw [List.foldl_cons]
      exact h

/-! ## The claims -/

/-- Claim C4. Pagination: fetch_feed walks pages of the fixed size in
increasing order, stops with the first page shorter than the page size,
and returns every page concatenated in request order; the number of page
requests is the number of full pages plus one. -/
theorem fetch_pagination {ρ : Type} (limit : ℕ) (qs : List (List ρ)) (lastp : List ρ)
    (hfull : ∀ q ∈ qs, q.length = limit) (hl : 0 < limit) (hshort : lastp.length < limit) :
    fetch_feed limit (qs ++ [lastp]) = (qs ++ [lastp]).flatten ∧
    fetch_requests limit (qs ++ [lastp]) = qs.length + 1 := by
  induction qs with
  | nil =>
    cases hemp : lastp.isEmpty
    · have hne : lastp ≠ [] := by
        cases lastp
        · simp at hemp
        · simp
      constructor
      · simp [fetch_feed, hemp, hshort]
      · simp [fetch_requests, hemp, hshort]
    · have : lastp = [] := by
        cases lastp
        · rfl
        · simp at hemp
      subst this
      constructor
      · simp [fetch_feed]
      · simp [fetch_requests]
  | cons b bs ih =>
    have hb : b.length = limit := hfull b (by simp)
    have hne : b.isEmpty = false := by
      cases b with
      | nil => simp at hb; omega
      | cons x xs => simp
    have hnlt : ¬b.length < limit := by omega
    obtain ⟨ih1, ih2⟩ := ih (fun q hq => hfull q (by simp [hq]))
    constructor
    · rw [List.cons_append,
        show fetch_feed limit (b :: (bs ++ [lastp]))
            = b ++ fetch_feed limit (bs ++ [lastp]) by
          simp [fetch_feed, hne, hnlt],
        ih1, List.flatten_cons]
    · rw [List.cons_append,
        show fetch_requests limit (b :: (bs ++ [lastp]))
            = 1 + fetch_requests limit (bs ++ [lastp]) by
          simp [fetch_requests, hne, hnlt],
        ih2]
      simp
      omega

/-- Witness for C4: three pages of sizes 1000, 1000, 437 produce exactly
3 requests and 2437 records in order. -/
theorem fetch_pagination_witness :
    (fetch_feed 1000 [List.replicate 1000 (0 : ℚ), List.replicate 1000 0,
        List.replicate 437 0]).length = 2437 ∧
    fetch_requests 1000 [List.replicate 1000 (0 : ℚ), List.replicate 1000 0,
        List.replicate 437 0] = 3 := by
  have h := fetch_pagination 1000
    [List.replicate 1000 (0 : ℚ), List.replicate 1000 0] (List.replicate 437 0)
    (by
      intro q hq
      simp only [List.mem_cons, List.not_mem_nil, or_false] at hq
      rcases hq with rfl | rfl <;> rw [List.length_replicate])
    (by norm_num)
    (by rw [List.length_replicate]; norm_num)
  obtain ⟨h1, h2⟩ := h
  constructor
  · rw [show [List.replicate 1000 (0 : ℚ), List.replicate 1000 0, List.replicate 437 0]
        = [List.replicate 1000 (0 : ℚ), List.replicate 1000 0] ++ [List.replicate 437 0]
        from rfl, h1]
    rw [List.length_flatten]
    simp only [List.map_append, List.map_cons, List.map_nil, List.length_replicate]
    norm_num
  · rw [show [List.replicate 1000 (0 : ℚ), List.replicate 1000 0, List.replicate 437 0]
        = [List.replicate 1000 (0 : ℚ), List.replicate 1000 0] ++ [List.replicate 437 0]
        from rfl, h2]
    rfl

/-- Claim C5. Fetch degrades instead of failing: when one page's attempts
never reach a 200 — whether a non-retryable status stops them or the retry
budget runs out — safe_get yields the empty batch and fetch_feed returns
exactly the records accumulated from the earlier (full) pages. -/
theorem fetch_degrades {ρ : Type} (limit : ℕ) (qs : List (ℕ → Resp ρ))
    (oracle : ℕ → Resp ρ) (rest : List (ℕ → Resp ρ))
    (hfull : ∀ q ∈ qs, ((safe_get q).1).length = limit) (hl : 0 < limit)
    (hfail : (∀ j, j < 4 → ok200 (oracle j) = false) ∨
      (∃ j, j < 4 ∧ hardFail (oracle j) = true ∧ ∀ i, i < j → transient (oracle i) = true)) :
    (safe_get oracle).1 = [] ∧
    fetch_feed_net limit (qs ++ oracle :: rest)
      = (qs.map (fun q => (safe_get q).1)).flatten := by
  have hempty : (safe_get oracle).1 = [] := by
    rcases hfail with h | ⟨j, hj4, hhard, htr⟩
    · apply safe_get_run_no200
      intro j hj
      simpa using h j hj
    · apply safe_get_run_hard_after oracle (3 / 2) j 0 4 hj4
      · simpa using hhard
      · intro m hm
        simpa using htr m hm
  refine ⟨hempty, ?_⟩
  rw [fetch_feed_net, List.map_append, List.map_cons, hempty]
  exact fetch_feed_full_stop limit hl (qs.map (fun q => (safe_get q).1)) _
    (by intro b hb; obtain ⟨q, hq, rfl⟩ := List.mem_map.mp hb; exact hfull q hq)

/-- Witness for C5: a channel whose every attempt raises degrades to the
empty series rather than an error. -/
theorem fetch_degrades_witness :
    (safe_get (fun _ => (Resp.exc : Resp ℚ))).1 = [] ∧
    fetch_feed_net 1000 [fun _ => (Resp.exc : Resp ℚ)] = [] := by
  have h := fetch_degrades 1000 [] (fun _ => (Resp.exc : Resp ℚ)) []
    (by intro q hq; simp at hq) (by norm_num)
    (Or.inl (by intro j _; simp [ok200]))
  simpa using h

/-- Claim C6. Retry with exponential backoff: the sleeps of any safe_get
run are exactly the first k powers 1.5^0, 1.5^1, ... for some k ≤ 4, and
a 503 answered once and then a 200 causes exactly the single sleep 1.5^0
(one second) and returns the successful body. -/
theorem retry_backoff (ρ : Type) :
    (∀ resp : ℕ → Resp ρ, ∃ k, k ≤ 4 ∧
      (safe_get resp).2 = (List.range k).map (fun j => ((3 : ℚ) / 2) ^ j)) ∧
    (∀ b0 body : List ρ,
      safe_get (fun i => if i = 0 then Resp.response 503 b0 else Resp.response 200 body)
        = (body, [1])) := by
  constructor
  · intro resp
    obtain ⟨k, hk, he⟩ := safe_get_run_sleeps resp (3 / 2) 4 0
    refine ⟨k, hk, ?_⟩
    rw [safe_get, he]
    apply List.map_congr_left
    intro j _
    simp
  · intro b0 body
    rfl

/-- Every slot is the start plus a whole number of cadences, with the fuel
discharged. -/
lemma mem_build_slots_shape {t e s : ℤ} (hs : s ∈ build_slots t e) :
    ∃ k : ℕ, s = t + 1800 * k :=
  build_slots_shape (e + 1800 - t).toNat t e le_rfl s hs

/-- Counterexample to C1 as stated: the slot 0 with tolerance 15 minutes
and a single sample exactly 900 seconds away receives no AlignedPoint,
because the inner loop demands a distance strictly below the tolerance. -/
theorem tolerance_boundary_cex :
    downsample_30min [((900 : ℤ), (5 : ℚ))] 0 0 15 = [] := by
  rw [downsample_30min, build_slots_le (by norm_num), build_slots_gt (by norm_num)]
  simp [downsample_go, slot_pick]

/-- Claim C1, amended: for a series holding one sample at signed offset d
(with |d| at most the tolerance) from a slot of the grid, the aligner
emits the point (slot, value) exactly when |d| is strictly below the
tolerance; a sample exactly at the tolerance produces nothing. -/
theorem tolerance_boundary (startL e : ℤ) (k : ℕ) (d : ℤ) (v : ℚ)
    (hk : startL + 1800 * k ≤ e) (hd : |d| ≤ 900) :
    downsample_30min [(startL + 1800 * k + d, v)] startL e 15
      = if |d| < 900 then [(startL + 1800 * k, v)] else [] := by
  have hsort : List.Pairwise (fun p q : ℤ × ℚ => p.1 ≤ q.1)
      [(startL + 1800 * k + d, v)] := by simp
  rw [downsample_eq_ref _ _ _ _ hsort (by norm_num) (by norm_num),
    show (15 : ℤ) * 60 = 900 by norm_num]
  set x := startL + 1800 * (k : ℤ) + d with hx
  have hsingle : ∀ s : ℤ, nearest_strict s 900 none [(x, v)]
      = if |x - s| < 900 then some (x, v) else none := by
    intro s
    by_cases h : |x - s| < 900 <;> simp [nearest_strict, h]
  have hmain := filterMap_unique (build_slots startL e)
    (fun s => (nearest_strict s 900 none [(x, v)]).map (fun p => (s, p.2)))
    (startL + 1800 * k) (build_slots_mem_of k startL e hk) (build_slots_nodup startL e)
    (by
      intro s hs hne
      obtain ⟨j, hj⟩ := mem_build_slots_shape hs
      have hdiff : (j : ℤ) ≠ (k : ℤ) := by
        intro hc
        exact hne (by rw [hj, hc])
      have hxs : x - s = 1800 * ((k : ℤ) - (j : ℤ)) + d := by
        rw [hj, hx]; ring
      have hfar : ¬(|x - s| < 900) := by
        rw [not_lt, le_abs]
        have hd1 := abs_le.mp hd
        rw [hxs]
        omega
      show ((nearest_strict s 900 none [(x, v)]).map (fun p => (s, p.2))) = none
      rw [hsingle s, if_neg hfar]
      rfl)
  rw [show ref_align 900 (build_slots startL e) [(x, v)]
      = (build_slots startL e).filterMap
          (fun s => (nearest_strict s 900 none [(x, v)]).map (fun p => (s, p.2)))
      from rfl, hmain]
  show ((nearest_strict (startL + 1800 * k) 900 none [(x, v)]).map
      (fun p => (startL + 1800 * (k : ℤ), p.2))).toList
    = if |d| < 900 then [(startL + 1800 * k, v)] else []
  rw [hsingle (startL + 1800 * k),
    show x - (startL + 1800 * k) = d by rw [hx]; ring]
  by_cases hdlt : |d| < 900
  · rw [if_pos hdlt, if_pos hdlt]
    rfl
  · rw [if_neg hdlt, if_neg hdlt]
    rfl

/-- Witness for the amended C1: at 899 seconds the sample is taken, at
exactly 900 seconds (the tolerance) it is not. -/
theorem tolerance_boundary_witness :
    downsample_30min [((899 : ℤ), (5 : ℚ))] 0 0 15 = [(0, 5)] ∧
    downsample_30min [((900 : ℤ), (7 : ℚ))] 0 0 15 = [] := by
  constructor
  · have h := tolerance_boundary 0 0 0 899 5 (by norm_num) (by norm_num)
    simpa using h
  · have h := tolerance_boundary 0 0 0 900 7 (by norm_num) (by norm_num)
    simpa using h

/-- Counterexample to C2 as stated: slot 0 of the grid over [0, 0] has a
sample within (inclusive) tolerance 900 s, yet no AlignedPoint at all is
emitted, because eligibility in the code is strict. -/
theorem nearest_wins_cex :
    (0 : ℤ) ∈ build_slots 0 0 ∧ |(900 : ℤ) - 0| ≤ 15 * 60 ∧
    downsample_30min [((900 : ℤ), (1 : ℚ))] 0 0 15 = [] := by
  refine ⟨?_, by norm_num, ?_⟩
  · rw [build_slots_le (by norm_num)]
    simp
  · rw [downsample_30min, build_slots_le (by norm_num), build_slots_gt (by norm_num)]
    simp [downsample_go, slot_pick]

/-- Claim C2, amended: every grid slot with a sample strictly within
tolerance gets exactly one AlignedPoint, stamped with the slot's own
instant, carrying the value of the strictly-nearest eligible sample,
earliest in time on exact-distance ties. -/
theorem nearest_wins (vs : List (ℤ × ℚ)) (startL e tolMin slot : ℤ)
    (hsort : List.Pairwise (fun p q : ℤ × ℚ => p.1 ≤ q.1) vs)
    (h0 : 0 ≤ tolMin) (h15 : tolMin ≤ 15)
    (hslot : slot ∈ build_slots startL e)
    (helig : ∃ q ∈ vs, |q.1 - slot| < tolMin * 60) :
    ∃ p ∈ vs, |p.1 - slot| < tolMin * 60 ∧
      (∀ q ∈ vs, |q.1 - slot| < tolMin * 60 → |p.1 - slot| ≤ |q.1 - slot|) ∧
      (∀ q ∈ vs, |q.1 - slot| < tolMin * 60 → |q.1 - slot| = |p.1 - slot| → p.1 ≤ q.1) ∧
      (downsample_30min vs startL e tolMin).filter (fun r => decide (r.1 = slot))
        = [(slot, p.2)] := by
  rw [downsample_eq_ref vs startL e tolMin hsort h0 h15,
    ref_align_filter (tolMin * 60) (build_slots startL e) vs slot
      (build_slots_nodup startL e) hslot]
  cases hn : nearest_strict slot (tolMin * 60) none vs with
  | none =>
    obtain ⟨q, hq, hqel⟩ := helig
    exact absurd hqel ((nearest_strict_eq_none slot (tolMin * 60) vs none hn).2 q hq)
  | some p =>
    obtain ⟨hmem, hel, hmin, _, htie⟩ :=
      nearest_strict_eq_some slot (tolMin * 60) vs none p hsort (by intro c hc; cases hc) hn
    refine ⟨p, ?_, hel, hmin, htie, by simp⟩
    rcases hmem with h | h
    · exact h
    · cases h

/-- Witness for the amended C2: slot 08:00, tolerance 15 min, samples at
07:50 (value 10) and 08:05 (value 20); the emitted point is (08:00, 20). -/
theorem nearest_wins_witness :
    ∃ p ∈ [((-600 : ℤ), (10 : ℚ)), (300, 20)], |p.1 - 0| < 15 * 60 ∧
      (∀ q ∈ [((-600 : ℤ), (10 : ℚ)), (300, 20)],
        |q.1 - 0| < 15 * 60 → |p.1 - 0| ≤ |q.1 - 0|) ∧
      (∀ q ∈ [((-600 : ℤ), (10 : ℚ)), (300, 20)],
        |q.1 - 0| < 15 * 60 → |q.1 - 0| = |p.1 - 0| → p.1 ≤ q.1) ∧
      (downsample_30min [((-600 : ℤ), (10 : ℚ)), (300, 20)] 0 0 15).filter
          (fun r => decide (r.1 = 0))
        = [(0, p.2)] := by
  apply nearest_wins [((-600 : ℤ), (10 : ℚ)), (300, 20)] 0 0 15 0
  · simp
  · norm_num
  · norm_num
  · rw [build_slots_le (by norm_num)]
    simp
  · exact ⟨(300, 20), by simp, by norm_num⟩

/-- Counterexample to C3 as stated: against the reference that uses the
spec's inclusive tolerance boundary, the single pass differs — a sample
exactly 900 s from the only slot is aligned by the inclusive reference
but not by downsample_30min. -/
theorem forward_pointer_cex :
    downsample_30min [((900 : ℤ), (2 : ℚ))] 0 0 15
      ≠ ref_align_incl (15 * 60) (build_slots 0 0) [((900 : ℤ), (2 : ℚ))] := by
  have h1 : downsample_30min [((900 : ℤ), (2 : ℚ))] 0 0 15 = [] := by
    rw [downsample_30min, build_slots_le (by norm_num), build_slots_gt (by norm_num)]
    simp [downsample_go, slot_pick]
  have h2 : ref_align_incl (15 * 60) (build_slots 0 0) [((900 : ℤ), (2 : ℚ))]
      = [(0, 2)] := by
    rw [build_slots_le (by norm_num), build_slots_gt (by norm_num)]
    simp [ref_align_incl, nearest_incl]
  rw [h1, h2]
  simp

/-- Claim C3, amended: for a series sorted ascending and a tolerance of at
most half the cadence, the single forward pass of downsample_30min returns
exactly what a reference computes that independently selects, per slot,
the nearest sample at distance strictly below the tolerance (earliest
winning exact ties); samples the pointer passes over are of no further
use to any later slot. -/
theorem forward_pointer_refines (vs : List (ℤ × ℚ)) (startL e tolMin : ℤ)
    (hsort : List.Pairwise (fun p q : ℤ × ℚ => p.1 ≤ q.1) vs)
    (h0 : 0 ≤ tolMin) (h15 : tolMin ≤ 15) :
    downsample_30min vs startL e tolMin
      = ref_align (tolMin * 60) (build_slots startL e) vs :=
  downsample_eq_ref vs startL e tolMin hsort h0 h15

/-- Witness for the amended C3 at a concrete sorted two-sample series. -/
theorem forward_pointer_witness :
    downsample_30min [((-600 : ℤ), (10 : ℚ)), (300, 20)] 0 1800 15
      = ref_align (15 * 60) (build_slots 0 1800) [((-600 : ℤ), (10 : ℚ)), (300, 20)] :=
  forward_pointer_refines [((-600 : ℤ), (10 : ℚ)), (300, 20)] 0 1800 15
    (by simp) (by norm_num) (by norm_num)

/-- Claim C7. Parse contract: parse_raw returns exactly the well-formed
records as (instant, value) pairs sorted non-decreasing by instant; a
record with unparsable value or timestamp is dropped and parsing goes on;
the three ordered normalization rules give a -03:00-suffixed wall time w
the local instant w (absolute w + 10800), a Z/+00:00 time the converted
instant w, and a naive time the zone attached directly (absolute
w - off w for the zone's offset off). -/
theorem parse_contract (off : ℤ → ℤ) :
    (∀ data : List RawRec,
      List.Pairwise (fun a b : ℤ × ℚ => a.1 ≤ b.1) (parse_raw off data)) ∧
    (∀ data : List RawRec,
      (parse_raw off data).Perm (data.filterMap (parse_one off))) ∧
    (∀ (ts : RawTs) (rest : List RawRec),
      parse_raw off (⟨none, ts⟩ :: rest) = parse_raw off rest) ∧
    (∀ (v : ℚ) (rest : List RawRec),
      parse_raw off (⟨some v, .malformed⟩ :: rest) = parse_raw off rest) ∧
    (∀ (w : ℤ) (v : ℚ), parse_one off ⟨some v, .offsetChile w⟩ = some (w + 10800, v)) ∧
    (∀ (w : ℤ) (v : ℚ), parse_one off ⟨some v, .utc w⟩ = some (w, v)) ∧
    (∀ (w : ℤ) (v : ℚ), parse_one off ⟨some v, .naive w⟩ = some (w - off w, v)) := by
  refine ⟨?_, ?_, ?_, ?_, fun w v => rfl, fun w v => rfl, fun w v => rfl⟩
  · intro data
    exact List.sorted_insertionSort (fun a b : ℤ × ℚ => a.1 ≤ b.1) _
  · intro data
    exact List.perm_insertionSort (fun a b : ℤ × ℚ => a.1 ≤ b.1) _
  · intro ts rest
    rw [parse_raw, parse_raw, List.filterMap_cons]
    rfl
  · intro v rest
    rw [parse_raw, parse_raw, List.filterMap_cons]
    rfl

/-- Claim C8. Window planning: the planned 8-to-8 window always spans
exactly one whole day, its end never passes now, and it is
[anchor − 1 day, anchor) when now has reached today's 08:00 anchor and
[anchor − 2 days, anchor − 1 day) otherwise. -/
theorem window_planning (now : ℤ) :
    (plan_window now).2 - (plan_window now).1 = 86400 ∧
    (plan_window now).2 ≤ now ∧
    (today_anchor now ≤ now →
      plan_window now = (today_anchor now - 86400, today_anchor now)) ∧
    (now < today_anchor now →
      plan_window now = (today_anchor now - 2 * 86400, today_anchor now - 86400)) := by
  have hm0 : 0 ≤ now.emod 86400 := Int.emod_nonneg now (by norm_num)
  have hm1 : now.emod 86400 < 86400 := Int.emod_lt_of_pos now (by norm_num)
  have ha : today_anchor now = now - now.emod 86400 + 28800 := rfl
  by_cases h : today_anchor now ≤ now
  · have hpw : plan_window now = (today_anchor now - 86400, today_anchor now) := by
      simp only [plan_window]
      rw [if_pos h]
    refine ⟨by rw [hpw]; omega, by rw [hpw]; simpa using h, fun _ => hpw, fun hc => ?_⟩
    omega
  · have hpw : plan_window now
        = (today_anchor now - 2 * 86400, today_anchor now - 86400) := by
      simp only [plan_window]
      rw [if_neg h]
    refine ⟨by rw [hpw]; omega, by rw [hpw]; simp only; omega, fun hc => ?_, fun _ => hpw⟩
    omega

/-- Witness for C8 at a concrete now past the anchor: the window is the
whole previous day ending at 08:00, and ends before now. -/
theorem window_planning_witness :
    plan_window 30000 = (28800 - 86400, 28800) ∧ (plan_window 30000).2 ≤ 30000 :=
  ⟨(window_planning 30000).2.2.1 (by decide), (window_planning 30000).2.1⟩

/-- Closed form of calc_stats on a nonempty list. -/
lemma calc_stats_cons (t : ℤ) (v : ℚ) (rest : List (ℤ × ℚ)) :
    calc_stats ((t, v) :: rest) = some
      { n := rest.length + 1
        min := (rest.map (fun p => p.2)).foldl Min.min v
        max := (rest.map (fun p => p.2)).foldl Max.max v
        mean := (v :: rest.map (fun p => p.2)).sum / ((rest.length : ℚ) + 1)
        std_sq :=
          if 1 < rest.length + 1 then
            ((v :: rest.map (fun p => p.2)).map
              (fun x => (x - (v :: rest.map (fun p => p.2)).sum / ((rest.length : ℚ) + 1)) ^ 2)).sum
              / ((rest.length : ℚ) + 1)
          else 0
        first := v
        last := (rest.map (fun p => p.2)).getLastD v } := by
  have hlen : (v :: rest.map (fun p => p.2)).length = rest.length + 1 := by simp
  rw [calc_stats, Option.some.injEq, Stats.mk.injEq, hlen]
  refine ⟨rfl, rfl, rfl, by push_cast; rfl, ?_, rfl, rfl⟩
  by_cases h : 1 < rest.length + 1
  · rw [if_pos h, if_pos h]
    push_cast
    rfl
  · rw [if_neg h, if_neg h]

/-- Claim C9. Statistics: calc_stats is absent exactly on the empty
series; on [1,2,3,4,5] it gives n=5, min=1, max=5, mean=3, variance 2
(population stddev √2), first=1, last=5; a single point has zero
deviation; in general n counts the points, min and max are attained
extrema bounding every value, the mean times n is the sum, and n times
the variance is the sum of squared deviations from the mean. -/
theorem stats_contract :
    (calc_stats [] = none) ∧
    (∀ (t : ℤ) (v : ℚ) (rest : List (ℤ × ℚ)),
      (calc_stats ((t, v) :: rest)).isSome = true) ∧
    (calc_stats [((0 : ℤ), (1 : ℚ)), (1800, 2), (3600, 3), (5400, 4), (7200, 5)]
      = some ⟨5, 1, 5, 3, 2, 1, 5⟩) ∧
    (∀ (t : ℤ) (v : ℚ), calc_stats [(t, v)] = some ⟨1, v, v, v, 0, v, v⟩) ∧
    (∀ (t : ℤ) (v : ℚ) (rest : List (ℤ × ℚ)), ∃ st,
      calc_stats ((t, v) :: rest) = some st ∧
      st.n = rest.length + 1 ∧
      st.first = v ∧
      st.last = (rest.map (fun p => p.2)).getLastD v ∧
      st.min ∈ v :: rest.map (fun p => p.2) ∧
      st.max ∈ v :: rest.map (fun p => p.2) ∧
      (∀ x ∈ v :: rest.map (fun p => p.2), st.min ≤ x ∧ x ≤ st.max) ∧
      st.mean * ((rest.length : ℚ) + 1) = (v :: rest.map (fun p => p.2)).sum) ∧
    (∀ (t : ℤ) (v : ℚ) (t' : ℤ) (v' : ℚ) (rest : List (ℤ × ℚ)), ∃ st,
      calc_stats ((t, v) :: (t', v') :: rest) = some st ∧
      (st.n : ℚ) * st.std_sq
        = ((v :: v' :: rest.map (fun p => p.2)).map (fun x => (x - st.mean) ^ 2)).sum) := by
  refine ⟨rfl, ?_, ?_, ?_, ?_, ?_⟩
  · intro t v rest
    rw [calc_stats_cons]
    rfl
  · rw [calc_stats]
    norm_num [List.foldl]
  · intro t v
    rw [calc_stats_cons]
    norm_num
  · intro t v rest
    rw [calc_stats_cons]
    refine ⟨_, rfl, rfl, rfl, rfl, ?_, ?_, ?_, ?_⟩
    · rcases foldl_min_mem (rest.map (fun p => p.2)) v with h | h
      · rw [h]; simp
      · exact List.mem_cons.mpr (Or.inr h)
    · rcases foldl_max_mem (rest.map (fun p => p.2)) v with h | h
      · rw [h]; simp
      · exact List.mem_cons.mpr (Or.inr h)
    · intro x hx
      rcases List.mem_cons.mp hx with h | h
      · subst h
        exact ⟨foldl_min_le_init _ _, foldl_max_ge_init _ _⟩
      · exact ⟨foldl_min_le_mem _ _ x h, foldl_max_ge_mem _ _ x h⟩
    · apply div_mul_cancel₀
      have : (0 : ℚ) < (rest.length : ℚ) + 1 := by positivity
      exact ne_of_gt this
  · intro t v t' v' rest
    refine ⟨_, calc_stats_cons t v ((t', v') :: rest), ?_⟩
    simp only [List.length_cons, List.map_cons]
    rw [if_pos (by omega)]
    push_cast
    rw [mul_div_cancel₀]
    positivity

/-- Witness for C9: the general characterization applied to the two-point
series ((0, 1), (1800, 3)). -/
theorem stats_contract_witness :
    ∃ st, calc_stats [((0 : ℤ), (1 : ℚ)), (1800, 3)] = some st ∧
      st.n = [((1800 : ℤ), (3 : ℚ))].length + 1 ∧
      st.first = 1 ∧
      st.last = ([((1800 : ℤ), (3 : ℚ))].map (fun p => p.2)).getLastD 1 ∧
      st.min ∈ (1 : ℚ) :: [((1800 : ℤ), (3 : ℚ))].map (fun p => p.2) ∧
      st.max ∈ (1 : ℚ) :: [((1800 : ℤ), (3 : ℚ))].map (fun p => p.2) ∧
      (∀ x ∈ (1 : ℚ) :: [((1800 : ℤ), (3 : ℚ))].map (fun p => p.2),
        st.min ≤ x ∧ x ≤ st.max) ∧
      st.mean * (([((1800 : ℤ), (3 : ℚ))].length : ℚ) + 1)
        = ((1 : ℚ) :: [((1800 : ℤ), (3 : ℚ))].map (fun p => p.2)).sum :=
  stats_contract.2.2.2.2.1 0 1 [(1800, 3)]

/-- Claim C10. Trend classification with threshold 0.1: neutral when an
end is absent or the delta sits inside the dead zone, positive when the
delta reaches the threshold upward, negative downward; 10.00 to 10.05 is
neutral and 10.00 to 10.11 positive. -/
theorem trend_contract :
    (∀ l : Option ℚ, trend_symbol none l (1 / 10) = .neutral) ∧
    (∀ f : Option ℚ, trend_symbol f none (1 / 10) = .neutral) ∧
    (∀ f l : ℚ, |l - f| < 1 / 10 →
      trend_symbol (some f) (some l) (1 / 10) = .neutral) ∧
    (∀ f l : ℚ, 1 / 10 ≤ |l - f| → f < l →
      trend_symbol (some f) (some l) (1 / 10) = .positive) ∧
    (∀ f l : ℚ, 1 / 10 ≤ |l - f| → l < f →
      trend_symbol (some f) (some l) (1 / 10) = .negative) ∧
    (trend_symbol (some 10) (some (1005 / 100)) (1 / 10) = .neutral) ∧
    (trend_symbol (some 10) (some (1011 / 100)) (1 / 10) = .positive) := by
  refine ⟨?_, ?_, ?_, ?_, ?_, ?_, ?_⟩
  · intro l
    cases l <;> rfl
  · intro f
    cases f <;> rfl
  · intro f l h
    simp only [trend_symbol]
    rw [if_pos h]
  · intro f l h hlt
    have h1 : ¬(|l - f| < 1 / 10) := not_lt.mpr h
    have h2 : 0 < l - f := sub_pos.mpr hlt
    simp only [trend_symbol]
    rw [if_neg h1, if_pos h2]
  · intro f l h hlt
    have h1 : ¬(|l - f| < 1 / 10) := not_lt.mpr h
    have h2 : ¬(0 < l - f) := by
      rw [not_lt]
      linarith
    simp only [trend_symbol]
    rw [if_neg h1, if_neg h2]
  · rw [trend_symbol, abs_of_pos (by norm_num)]
    norm_num
  · rw [trend_symbol, abs_of_pos (by norm_num)]
    norm_num

/-- Witness for C10: the dead zone keeps (0, 0.05) neutral, and the
threshold lets (0, 0.2) be positive and (0.2, 0) be negative. -/
theorem trend_contract_witness :
    trend_symbol (some 0) (some (5 / 100)) (1 / 10) = .neutral ∧
    trend_symbol (some 0) (some (2 / 10)) (1 / 10) = .positive ∧
    trend_symbol (some (2 / 10)) (some 0) (1 / 10) = .negative :=
  ⟨trend_contract.2.2.1 0 (5 / 100) (by rw [abs_of_pos (by norm_num)]; norm_num),
    trend_contract.2.2.2.1 0 (2 / 10) (by rw [abs_of_pos (by norm_num)]; norm_num)
      (by norm_num),
    trend_contract.2.2.2.2.1 (2 / 10) 0 (by rw [abs_of_neg (by norm_num)]; norm_num)
      (by norm_num)⟩

end Agua

section Smoke
open Agua

example : fetch_feed 3 [[1, 2, 3], [4]] = [1, 2, 3, 4] := by decide
example : fetch_requests 3 ([[1, 2, 3], [4]] : List (List ℕ)) = 2 := by decide
example :
    safe_get (fun i => if i = 0 then Resp.response 503 [] else Resp.response 200 [(7 : ℚ)])
      = ([7], [1]) := by decide
example : build_slots 0 3600 = [0, 1800, 3600] := by
  rw [build_slots_le (by norm_num), build_slots_le (by norm_num),
    build_slots_le (by norm_num), build_slots_gt (by norm_num)]
  norm_num
example : downsample_30min [((900 : ℤ), (5 : ℚ))] 0 0 15 = [] := by
  rw [downsample_30min, build_slots_le (by norm_num), build_slots_gt (by norm_num)]
  simp [downsample_go, slot_pick]
example : downsample_30min [((899 : ℤ), (5 : ℚ))] 0 0 15 = [(0, 5)] := by
  rw [downsample_30min, build_slots_le (by norm_num), build_slots_gt (by norm_num)]
  simp [downsample_go, slot_pick]
example :
    downsample_30min [((-600 : ℤ), (10 : ℚ)), (300, 20)] 0 0 15 = [(0, 20)] := by
  rw [downsample_30min, build_slots_le (by norm_num), build_slots_gt (by norm_num)]
  simp [downsample_go, slot_pick]
example :
    calc_stats [((0 : ℤ), (1 : ℚ)), (1, 2), (2, 3), (3, 4), (4, 5)]
      = some ⟨5, 1, 5, 3, 2, 1, 5⟩ := by
  rw [calc_stats]; norm_num [List.foldl]
example : trend_symbol (some 10) (some (1005 / 100)) (1 / 10) = .neutral := by
  rw [trend_symbol, abs_of_pos (by norm_num)]; norm_num
example : trend_symbol (some 10) (some (1011 / 100)) (1 / 10) = .positive := by
  rw [trend_symbol, abs_of_pos (by norm_num)]; norm_num
example : plan_window 30000 = (-57600, 28800) := by decide
example : plan_window 20000 = (-144000, -57600) := by decide

end Smoke
